import Mathlib

/-!
Verification of `scripts/pwrmsd_writer_multinode.py` (pnnl/conformer-selection).

The script has three pieces:
* `find_invalid_confs` — scans a result directory for missing `.tsv` files and
  returns the `.xyz` paths of the conformers whose result is absent;
* `rmsd` — one pairwise comparison: a placeholder (`np.nan`, modelled as
  `none`) when the target conformer is invalid, otherwise the score of the
  external alignment routine (modelled as an abstract `oracle`);
* `pwrmsd_writer_multinode` — builds one row per geometry of the current cycle
  and assembles them into a per-cycle table, plus the `__main__` driver loop.

Modelling conventions:
* file paths are the strings the source builds (the zero paddings `%04d` and
  `%02d` are `pad`); `abspath` is modelled as the identity (a fixed working
  directory), since paths are only ever compared with each other;
* `np.nan` cells are `none`, real scores are `some v`; the external
  `OBAlign.GetRMSD` value is an abstract `oracle : String → String → α`;
* `pandas.DataFrame.loc[i] = row` raises unless `row` has exactly one value
  per column; the table builder therefore returns `none` when some row does
  not have `tot_cyc * tot_geom` cells, and `some rows` otherwise;
* the worker pool (`Pool.map`) is a plain positional `List.map`.
-/

namespace ConfSel

/-! ## Decimal formatting (`%04d % n`, `%02d % n`) -/

/-- Little-endian decimal digits of `n`; structural recursion on a fuel
argument so that everything reduces in the kernel. Empty for `n = 0`. -/
def digitsGo (fuel n : Nat) : List Nat :=
  match fuel with
  | 0 => []
  | f + 1 => if n = 0 then [] else n % 10 :: digitsGo f (n / 10)

/-- Decimal digit characters of `n`, most significant first; empty for 0. -/
def natChars (n : Nat) : List Char :=
  ((digitsGo n n).reverse).map Nat.digitChar

/-- Characters of `%0wd % n`: the decimal representation of `n` left-padded
with `'0'` to width `w` (wider when `n` needs more digits). -/
def padChars (w n : Nat) : List Char :=
  List.replicate (w - (natChars n).length) '0' ++ natChars n

/-- The string `%0wd % n`. -/
def pad (w n : Nat) : String :=
  String.mk (padChars w n)

/-- Numeric value of a decimal digit character. -/
def charVal (c : Char) : Nat := c.toNat - 48

/-- Parse a zero-padded decimal character list back to its value. -/
def parseNat (cs : List Char) : Nat :=
  cs.foldl (fun a c => a * 10 + charVal c) 0

theorem digitsGo_lt_ten (fuel n : Nat) : ∀ d ∈ digitsGo fuel n, d < 10 := by
  induction fuel generalizing n with
  | zero => intro d hd; simp [digitsGo] at hd
  | succ f ih =>
      intro d hd
      unfold digitsGo at hd
      by_cases h : n = 0
      · simp [h] at hd
      · rw [if_neg h] at hd
        rcases List.mem_cons.mp hd with h1 | h1
        · subst h1; exact Nat.mod_lt _ (by omega)
        · exact ih (n / 10) d h1

theorem charVal_digitChar : ∀ d, d < 10 → charVal (Nat.digitChar d) = d := by
  decide

theorem digitChar_ne_of_lt_ten :
    ∀ d, d < 10 → Nat.digitChar d ≠ '_' ∧ Nat.digitChar d ≠ '.' := by
  decide

theorem foldl_parse_replicate_zero (k : Nat) (a : Nat) :
    List.foldl (fun x c => x * 10 + charVal c) a (List.replicate k '0')
      = a * 10 ^ k := by
  induction k generalizing a with
  | zero => simp
  | succ m ih =>
      rw [List.replicate_succ, List.foldl_cons, ih]
      have hz : charVal '0' = 0 := by decide
      rw [hz]
      ring

theorem foldl_parse_digitsGo (fuel : Nat) :
    ∀ n, n ≤ fuel → ∀ a,
      List.foldl (fun x c => x * 10 + charVal c) a
          (((digitsGo fuel n).reverse).map Nat.digitChar)
        = a * 10 ^ (digitsGo fuel n).length + n := by
  induction fuel with
  | zero =>
      intro n hn a
      interval_cases n
      simp [digitsGo]
  | succ f ih =>
      intro n hn a
      by_cases h : n = 0
      · subst h; simp [digitsGo]
      · have hrec : n / 10 ≤ f := by omega
        unfold digitsGo
        rw [if_neg h, List.reverse_cons, List.map_append, List.foldl_append,
          ih (n / 10) hrec a]
        have hd : charVal (Nat.digitChar (n % 10)) = n % 10 :=
          charVal_digitChar _ (Nat.mod_lt _ (by omega))
        simp only [List.map_cons, List.map_nil, List.foldl_cons, List.foldl_nil, hd]
        have hlen : (n % 10 :: digitsGo f (n / 10)).length
            = (digitsGo f (n / 10)).length + 1 := rfl
        rw [hlen]
        have : (a * 10 ^ (digitsGo f (n / 10)).length + n / 10) * 10 + n % 10
            = a * 10 ^ ((digitsGo f (n / 10)).length + 1) + (10 * (n / 10) + n % 10) := by
          ring
        rw [this, Nat.div_add_mod]

theorem parseNat_padChars (w n : Nat) : parseNat (padChars w n) = n := by
  unfold parseNat padChars natChars
  rw [List.foldl_append, foldl_parse_replicate_zero,
    foldl_parse_digitsGo n n (Nat.le_refl n)]
  simp

theorem padChars_inj {w m n : Nat} (h : padChars w m = padChars w n) : m = n := by
  have := congrArg parseNat h
  rwa [parseNat_padChars, parseNat_padChars] at this

theorem padChars_ne_sep (w n : Nat) :
    ∀ c ∈ padChars w n, c ≠ '_' ∧ c ≠ '.' := by
  intro c hc
  unfold padChars natChars at hc
  rcases List.mem_append.mp hc with h | h
  · have := (List.mem_replicate.mp h).2
    subst this
    exact ⟨by decide, by decide⟩
  · rcases List.mem_map.mp h with ⟨d, hd, hdc⟩
    subst hdc
    exact digitChar_ne_of_lt_ten d (digitsGo_lt_ten n n d (List.mem_reverse.mp hd))

/-- Cancellation through a non-digit separator: two all-digit blocks followed
by the same separator character agree block-wise. -/
theorem append_sep_inj {sep : Char} :
    ∀ {d₁ d₂ r₁ r₂ : List Char},
      (∀ c ∈ d₁, c ≠ sep) → (∀ c ∈ d₂, c ≠ sep) →
      d₁ ++ sep :: r₁ = d₂ ++ sep :: r₂ → d₁ = d₂ ∧ r₁ = r₂ := by
  intro d₁
  induction d₁ with
  | nil =>
      intro d₂ r₁ r₂ _ h₂ h
      cases d₂ with
      | nil => simpa using h
      | cons b tl =>
          exfalso
          have hb : sep = b := by simpa using congrArg (fun l => l.headI) h
          exact h₂ b (List.mem_cons_self b tl) hb.symm
  | cons a tl ih =>
      intro d₂ r₁ r₂ h₁ h₂ h
      cases d₂ with
      | nil =>
          exfalso
          have ha : a = sep := by simpa using congrArg (fun l => l.headI) h
          exact h₁ a (List.mem_cons_self a tl) ha
      | cons b tl₂ =>
          have hab : a = b := by simpa using congrArg (fun l => l.headI) h
          subst hab
          have htail : tl ++ sep :: r₁ = tl₂ ++ sep :: r₂ := by
            simpa using congrArg List.tail h
          have := ih (fun c hc => h₁ c (List.mem_cons_of_mem a hc))
            (fun c hc => h₂ c (List.mem_cons_of_mem a hc)) htail
          exact ⟨by rw [this.1], this.2⟩

/-! ## File-path templates -/

/-- Directory `output/dft/{ID}_{ADD}`; `abspath` is modelled as the identity
(a fixed working directory). -/
def geomdir (ID ADD : String) : String :=
  "output/dft/" ++ ID ++ "_" ++ ADD

/-- Result directory `output/mobility/mobcal/conformer_ccs`. -/
def tsvpath : String :=
  "output/mobility/mobcal/conformer_ccs"

/-- Expected MOBCAL result file for the conformer with 1-based cycle `c` and
geometry `g` — the template `t.format(c, g)` in `find_invalid_confs`. -/
def tsvName (ID ADD : String) (c g : Nat) : String :=
  tsvpath ++ "/" ++ ID ++ "_" ++ ADD ++ "_" ++ pad 4 c ++ "_geom" ++ pad 2 g ++ ".tsv"

/-- Path of the conformer `.xyz` file for 1-based cycle `c`, geometry `g`.
The same template is built in `find_invalid_confs` and, as `confstring`, in
`pwrmsd_writer_multinode`. -/
def confName (ID ADD : String) (c g : Nat) : String :=
  geomdir ID ADD ++ "/cycle_" ++ pad 4 c ++ "_geom" ++ pad 2 g ++ "/"
    ++ ID ++ "_" ++ ADD ++ "_" ++ pad 4 c ++ "_geom" ++ pad 2 g ++ ".xyz"

/-! ## Invalid-set scanner -/

/-- Model of `find_invalid_confs(ID, ADD, save, tot_cyc, tot_geom)`: for every expected
(cycle, geometry) pair, 1-based and in loop order, keep the conformer `.xyz`
path when the matching `.tsv` is absent from the result-directory listing
`tsvs` (the source obtains `tsvs` by `glob`; `save` only writes a side
artifact and does not affect the returned list, so it is not modelled). -/
def find_invalid_confs (ID ADD : String) (tsvs : List String)
    (tot_cyc tot_geom : Nat) : List String :=
  (List.range' 1 tot_cyc).flatMap fun c =>
    (List.range' 1 tot_geom).filterMap fun g =>
      if tsvName ID ADD c g ∈ tsvs then none else some (confName ID ADD c g)

theorem sum_map_const {α : Type} (l : List α) (n : Nat) :
    (l.map fun _ => n).sum = l.length * n := by
  induction l with
  | nil => simp
  | cons a tl ih => simp [ih]; ring

/-- C3: with an empty result directory, `find_invalid_confs` raises no error
and returns exactly the full expected set of `tot_cyc * tot_geom` input
conformer paths, in loop order. -/
theorem find_invalid_confs_empty_dir (ID ADD : String) (tot_cyc tot_geom : Nat) :
    find_invalid_confs ID ADD [] tot_cyc tot_geom
        = ((List.range' 1 tot_cyc).flatMap fun c =>
            (List.range' 1 tot_geom).map fun g => confName ID ADD c g)
      ∧ (find_invalid_confs ID ADD [] tot_cyc tot_geom).length
        = tot_cyc * tot_geom := by
  have h : find_invalid_confs ID ADD [] tot_cyc tot_geom
      = ((List.range' 1 tot_cyc).flatMap fun c =>
          (List.range' 1 tot_geom).map fun g => confName ID ADD c g) := by
    unfold find_invalid_confs
    refine List.flatMap_congr fun c _ => ?_
    have : (fun g => if tsvName ID ADD c g ∈ ([] : List String) then none
        else some (confName ID ADD c g))
        = fun g => some (confName ID ADD c g) := by
      funext g
      simp
    rw [this]
    exact List.filterMap_eq_map (fun g => confName ID ADD c g) ▸ rfl
  refine ⟨h, ?_⟩
  rw [h, List.length_flatMap]
  have : (List.map (List.length ∘ fun c =>
      (List.range' 1 tot_geom).map fun g => confName ID ADD c g)
        (List.range' 1 tot_cyc))
      = (List.range' 1 tot_cyc).map fun _ => tot_geom := by
    refine List.map_congr_left fun c _ => ?_
    simp
  rw [this, sum_map_const, List.length_range']

/-! ## Pairwise comparison and the table builder -/

/-- Model of `rmsd(target, ref, invalid)`: `np.nan` (`none`) when the target conformer
is invalid, otherwise the external alignment score of `ref` against `target`
(`OBAlign` with `SetRefMol` from `ref` and `SetTargetMol` from `target`),
supplied by the abstract `oracle`. -/
def rmsd {α : Type} (oracle : String → String → α)
    (target ref : String) (invalid : List String) : Option α :=
  if target ∈ invalid then none else some (oracle ref target)

/-- Count `prev = current_cyc*50 + current_geom` of leading `np.nan`
cells appended before the self-comparison cell. Note the literal `50`, where
every other use of the geometry count goes through the `tot_geom` parameter. -/
def prevCount (current_cyc current_geom : Nat) : Nat :=
  current_cyc * 50 + current_geom

/-- The `conformers` list a valid slot is compared against: the later
geometries of the current cycle, then every geometry of every later cycle
(loop indices 0-based, file names 1-based). -/
def conformers (ID ADD : String) (tot_cyc tot_geom current_cyc current_geom : Nat) :
    List String :=
  ((List.range' (current_geom + 1) (tot_geom - (current_geom + 1))).map fun g =>
      confName ID ADD (current_cyc + 1) (g + 1))
    ++ ((List.range' (current_cyc + 1) (tot_cyc - (current_cyc + 1))).flatMap fun c =>
      (List.range tot_geom).map fun g => confName ID ADD (c + 1) (g + 1))

/-- One row of the per-cycle table, as built by the body of the
`for current_geom in geometries` loop: `prev` leading placeholders, one
self-comparison placeholder, then either placeholders up to
`tot_cyc*tot_geom` (own conformer invalid) or the mapped comparisons. -/
def pwrmsd_row {α : Type} (oracle : String → String → α) (invalid : List String)
    (ID ADD : String) (tot_cyc tot_geom current_cyc current_geom : Nat) :
    List (Option α) :=
  let conf0 := confName ID ADD (current_cyc + 1) (current_geom + 1)
  let lead : List (Option α) :=
    List.replicate (prevCount current_cyc current_geom) none ++ [none]
  if conf0 ∈ invalid then
    lead ++ List.replicate
      (tot_cyc * tot_geom - (prevCount current_cyc current_geom + 1)) none
  else
    lead ++ (conformers ID ADD tot_cyc tot_geom current_cyc current_geom).map
      fun t => rmsd oracle t conf0 invalid

/-- The comparisons handed to the worker pool for one row: none when the
own conformer of the row is invalid (the loop continues before the pool
dispatch), otherwise exactly the `conformers` list. -/
def rowDispatched (invalid : List String) (ID ADD : String)
    (tot_cyc tot_geom current_cyc current_geom : Nat) : List String :=
  if confName ID ADD (current_cyc + 1) (current_geom + 1) ∈ invalid then []
  else conformers ID ADD tot_cyc tot_geom current_cyc current_geom

/-- Model of `pwrmsd_writer_multinode(current_cyc, ...)` up to serialization: one row
per geometry; `DataFrame.loc[current_geom] = row` requires exactly
`tot_cyc*tot_geom` cells (the column count of the frame) and raises otherwise,
modelled by returning `none`. -/
def pwrmsd_writer_multinode {α : Type} (oracle : String → String → α)
    (invalid : List String) (ID ADD : String)
    (tot_cyc tot_geom current_cyc : Nat) : Option (List (List (Option α))) :=
  let rows := (List.range tot_geom).map fun g =>
    pwrmsd_row oracle invalid ID ADD tot_cyc tot_geom current_cyc g
  if rows.all fun r => r.length == tot_cyc * tot_geom then some rows else none

/-! ## Driver (`__main__`) -/

/-- Output directory `pwRMSD`. -/
def writedir : String := "pwRMSD"

/-- The per-cycle output artifact
`{ID}_{ADD}_cycle{cstr}_pwrmsd.pkl` with `cstr = %04d % (c + 1)`,
checked with `isfile` before a cycle is dispatched and written by
`to_pickle` when the builder runs. -/
def outName (ID ADD : String) (c : Nat) : String :=
  writedir ++ "/" ++ ID ++ "_" ++ ADD ++ "_cycle" ++ pad 4 (c + 1) ++ "_pwrmsd.pkl"

/-- One iteration of the `for c in range(args.start, args.stop)` loop:
skip when the artifact exists, otherwise dispatch the builder (recorded in
the first component) which writes the artifact (second component). -/
def driverStep (ID ADD : String) (acc : List Nat × List String) (c : Nat) :
    List Nat × List String :=
  if outName ID ADD c ∈ acc.2 then acc
  else (acc.1 ++ [c], acc.2 ++ [outName ID ADD c])

/-- The whole driver loop over the half-open cycle range `[start, stop)`,
run against the file set `fs`: returns the dispatched cycles and the file
set after the run. -/
def driverRun (fs : List String) (ID ADD : String) (start stop : Nat) :
    List Nat × List String :=
  (List.range' start (stop - start)).foldl (driverStep ID ADD) ([], fs)

/-! ## Spec-side comparison enumeration (for the refinement claim C7) -/

/-- The spec description of the comparison set of slot
`(current_cyc, current_geom)`: every slot strictly after it in flattened
`(cycle, geometry)` order, ascending, decoded back to its 1-based file name. -/
def specComparisons (ID ADD : String) (tot_cyc tot_geom current_cyc current_geom : Nat) :
    List String :=
  (List.range' (current_cyc * tot_geom + current_geom + 1)
      (tot_cyc * tot_geom - (current_cyc * tot_geom + current_geom + 1))).map
    fun k => confName ID ADD (k / tot_geom + 1) (k % tot_geom + 1)

/-! ## Row structure lemmas -/

theorem pwrmsd_row_valid {α : Type} (oracle : String → String → α)
    (invalid : List String) (ID ADD : String) (tc tg c g : Nat)
    (h : confName ID ADD (c + 1) (g + 1) ∉ invalid) :
    pwrmsd_row oracle invalid ID ADD tc tg c g
      = List.replicate (prevCount c g + 1) none
        ++ (conformers ID ADD tc tg c g).map
          (fun t => rmsd oracle t (confName ID ADD (c + 1) (g + 1)) invalid) := by
  simp only [pwrmsd_row]
  rw [if_neg h, ← List.replicate_succ']

theorem pwrmsd_row_invalid {α : Type} (oracle : String → String → α)
    (invalid : List String) (ID ADD : String) (tc tg c g : Nat)
    (h : confName ID ADD (c + 1) (g + 1) ∈ invalid) :
    pwrmsd_row oracle invalid ID ADD tc tg c g
      = List.replicate (prevCount c g + 1) none
        ++ List.replicate (tc * tg - (prevCount c g + 1)) none := by
  simp only [pwrmsd_row]
  rw [if_pos h, ← List.replicate_succ']

theorem conformers_length (ID ADD : String) (tc tg c g : Nat) :
    (conformers ID ADD tc tg c g).length = (tg - (g + 1)) + (tc - (c + 1)) * tg := by
  unfold conformers
  rw [List.length_append, List.length_map, List.length_range', List.length_flatMap]
  have h : (List.map (List.length ∘ fun c' =>
        (List.range tg).map fun g' => confName ID ADD (c' + 1) (g' + 1))
        (List.range' (c + 1) (tc - (c + 1))))
      = (List.range' (c + 1) (tc - (c + 1))).map fun _ => tg := by
    refine List.map_congr_left fun x _ => ?_
    simp
  rw [h, sum_map_const, List.length_range']

theorem pwrmsd_row_length_valid {α : Type} (oracle : String → String → α)
    (invalid : List String) (ID ADD : String) (tc tg c g : Nat)
    (h : confName ID ADD (c + 1) (g + 1) ∉ invalid) :
    (pwrmsd_row oracle invalid ID ADD tc tg c g).length
      = prevCount c g + 1 + ((tg - (g + 1)) + (tc - (c + 1)) * tg) := by
  rw [pwrmsd_row_valid oracle invalid ID ADD tc tg c g h, List.length_append,
    List.length_replicate, List.length_map, conformers_length]

/-- For a valid slot of a produced table (its row has exactly one cell per
column), the leading-placeholder count coincides with the flattened
global index: the row-length bookkeeping forces `c * 50 = c * tot_geom`. -/
theorem produced_valid_prev {α : Type} (oracle : String → String → α)
    (invalid : List String) (ID ADD : String) (tc tg c g : Nat)
    (hg : g < tg) (hc : c < tc)
    (hval : confName ID ADD (c + 1) (g + 1) ∉ invalid)
    (hlen : (pwrmsd_row oracle invalid ID ADD tc tg c g).length = tc * tg) :
    prevCount c g = c * tg + g := by
  rw [pwrmsd_row_length_valid oracle invalid ID ADD tc tg c g hval] at hlen
  unfold prevCount at hlen ⊢
  have h1 : tc * tg = (c + 1) * tg + (tc - (c + 1)) * tg := by
    have h2 : tc = (c + 1) + (tc - (c + 1)) := by omega
    conv_lhs => rw [h2]
    ring
  have h3 : (c + 1) * tg = c * tg + tg := by ring
  rw [h3] at h1
  generalize (tc - (c + 1)) * tg = X at hlen h1
  generalize c * tg = Y at hlen h1 ⊢
  omega

/-- Cells up to and including position `prevCount c g` are placeholders, in
either branch of the row builder. -/
theorem row_prefix_none {α : Type} (oracle : String → String → α)
    (invalid : List String) (ID ADD : String) (tc tg c g j : Nat)
    (hj : j ≤ prevCount c g)
    (hjl : j < (pwrmsd_row oracle invalid ID ADD tc tg c g).length) :
    (pwrmsd_row oracle invalid ID ADD tc tg c g).get ⟨j, hjl⟩ = none := by
  rw [List.get_eq_getElem]
  by_cases h : confName ID ADD (c + 1) (g + 1) ∈ invalid
  · have hr := pwrmsd_row_invalid oracle invalid ID ADD tc tg c g h
    have hj' : j < (List.replicate (prevCount c g + 1) (none : Option α)).length := by
      rw [List.length_replicate]; omega
    simp only [hr]
    rw [List.getElem_append_left hj', List.getElem_replicate]
  · have hr := pwrmsd_row_valid oracle invalid ID ADD tc tg c g h
    have hj' : j < (List.replicate (prevCount c g + 1) (none : Option α)).length := by
      rw [List.length_replicate]; omega
    simp only [hr]
    rw [List.getElem_append_left hj', List.getElem_replicate]

/-! ## C1: the leading-placeholder count -/

/-- C1: the number of leading placeholder cells is `current_cyc*50 +
current_geom` (hardcoded stride `50`), not `current_cyc*tot_geom +
current_geom`: at totals `tot_cyc = 3`, `tot_geom = 2` and slot `(1, 0)` the
row built by the code starts with `prevCount 1 0 + 1 = 51` placeholders
(50 leading ones plus the self cell), while the claim expects
`1 * 2 + 0 = 2` leading placeholders. -/
theorem leading_placeholders_use_hardcoded_fifty :
    ((pwrmsd_row (fun _ _ => (0 : Int)) [] "I" "+H" 3 2 1 0).takeWhile
        Option.isNone).length = prevCount 1 0 + 1
    ∧ prevCount 1 0 = 50 ∧ 1 * 2 + 0 ≠ 50 :=
  ⟨by decide, rfl, by decide⟩

/-! ## C5: invalid rows are all placeholders and dispatch nothing -/

theorem row_all_none_of_invalid {α : Type} (oracle : String → String → α)
    (invalid : List String) (ID ADD : String) (tc tg c g : Nat)
    (h : confName ID ADD (c + 1) (g + 1) ∈ invalid) :
    ∀ x ∈ pwrmsd_row oracle invalid ID ADD tc tg c g, x = none := by
  intro x hx
  rw [pwrmsd_row_invalid oracle invalid ID ADD tc tg c g h] at hx
  rcases List.mem_append.mp hx with h1 | h1
  · exact (List.mem_replicate.mp h1).2
  · exact (List.mem_replicate.mp h1).2

/-- C5: when the own conformer path of a row is in the invalid set, every cell of
the row is a placeholder and no comparison is handed to the worker pool. -/
theorem invalid_row_all_placeholders {α : Type} (oracle : String → String → α)
    (invalid : List String) (ID ADD : String) (tc tg c g : Nat)
    (h : confName ID ADD (c + 1) (g + 1) ∈ invalid) :
    (∀ x ∈ pwrmsd_row oracle invalid ID ADD tc tg c g, x = none)
    ∧ rowDispatched invalid ID ADD tc tg c g = [] := by
  refine ⟨row_all_none_of_invalid oracle invalid ID ADD tc tg c g h, ?_⟩
  unfold rowDispatched
  rw [if_pos h]

theorem invalid_row_all_placeholders_witness :
    (∀ x ∈ pwrmsd_row (fun _ _ => (0 : Int)) [confName "I" "+H" 1 1] "I" "+H" 1 1 0 0,
        x = none)
    ∧ rowDispatched [confName "I" "+H" 1 1] "I" "+H" 1 1 0 0 = [] :=
  invalid_row_all_placeholders (fun _ _ => (0 : Int)) [confName "I" "+H" 1 1]
    "I" "+H" 1 1 0 0 (by decide)

/-! ## C6: the target, not the reference, decides the placeholder branch -/

/-- C6: `rmsd` yields a placeholder exactly when its target is in the invalid
set; otherwise it returns the external alignment score — regardless, in both
branches, of whether the reference is in the invalid set. -/
theorem rmsd_target_decides {α : Type} (oracle : String → String → α)
    (target ref : String) (invalid : List String) :
    (target ∈ invalid → rmsd oracle target ref invalid = none)
    ∧ (target ∉ invalid → rmsd oracle target ref invalid = some (oracle ref target)) := by
  constructor
  · intro h
    simp [rmsd, h]
  · intro h
    simp [rmsd, h]

theorem rmsd_target_decides_witness :
    rmsd (fun _ _ => (0 : Int)) "a" "b" ["a"] = none
    ∧ rmsd (fun _ _ => (0 : Int)) "b" "a" ["a"] = some 0 :=
  ⟨(rmsd_target_decides (fun _ _ => (0 : Int)) "a" "b" ["a"]).1 (by decide),
    (rmsd_target_decides (fun _ _ => (0 : Int)) "b" "a" ["a"]).2 (by decide)⟩

/-! ## C10: length of an all-placeholder row -/

/-- C10, corrected: the all-placeholder row of an invalid slot has
`max (prevCount c g + 1) (tot_cyc * tot_geom)` cells — the trailing fill
tops the row up to `tot_cyc * tot_geom` but never trims it, so the row
only has exactly `tot_cyc * tot_geom` cells when
`prevCount c g < tot_cyc * tot_geom`. -/
theorem invalid_row_length {α : Type} (oracle : String → String → α)
    (invalid : List String) (ID ADD : String) (tc tg c g : Nat)
    (h : confName ID ADD (c + 1) (g + 1) ∈ invalid) :
    (pwrmsd_row oracle invalid ID ADD tc tg c g).length
      = max (prevCount c g + 1) (tc * tg) := by
  rw [pwrmsd_row_invalid oracle invalid ID ADD tc tg c g h, List.length_append,
    List.length_replicate, List.length_replicate]
  omega

/-- C10 as stated is false: at totals `tot_cyc = 3`, `tot_geom = 2`, the
all-placeholder row of the invalid slot `(1, 0)` has 51 cells, not
`3 * 2 = 6`. -/
theorem invalid_row_length_counterexample :
    (pwrmsd_row (fun _ _ => (0 : Int)) [confName "I" "+H" 2 1] "I" "+H" 3 2 1 0).length = 51
    ∧ (51 : Nat) ≠ 3 * 2 :=
  ⟨by decide, by decide⟩

theorem invalid_row_length_witness :
    (pwrmsd_row (fun _ _ => (0 : Int)) [confName "I" "+H" 2 1] "I" "+H" 3 2 1 0).length
      = max (prevCount 1 0 + 1) (3 * 2) :=
  invalid_row_length (fun _ _ => (0 : Int)) [confName "I" "+H" 2 1] "I" "+H" 3 2 1 0
    (by decide)

/-! ## Produced tables (C2, C9) -/

theorem writer_table_eq {α : Type} (oracle : String → String → α)
    (invalid : List String) (ID ADD : String) (tc tg c : Nat)
    (table : List (List (Option α)))
    (h : pwrmsd_writer_multinode oracle invalid ID ADD tc tg c = some table) :
    table = ((List.range tg).map fun g => pwrmsd_row oracle invalid ID ADD tc tg c g)
    ∧ ∀ g < tg, (pwrmsd_row oracle invalid ID ADD tc tg c g).length = tc * tg := by
  simp only [pwrmsd_writer_multinode] at h
  split at h
  next hall =>
    injection h with h
    subst h
    refine ⟨rfl, fun g hg => ?_⟩
    have hm := List.all_eq_true.mp hall _
      (List.mem_map.mpr ⟨g, List.mem_range.mpr hg, rfl⟩)
    simpa using hm
  next => exact absurd h (by simp)

theorem get_congr {α : Type} {l l' : List α} (h : l = l') {i : Nat}
    (hi : i < l.length) :
    l.get ⟨i, hi⟩ = l'.get ⟨i, h ▸ hi⟩ := by
  subst h
  rfl

/-- C2: every produced per-cycle table is upper-triangular — for a cycle whose
conformers are all valid, any cell `(i, j)` with `j` at most the flattened
global index `current_cyc * tot_geom + i` of the own slot of row `i` is a
placeholder. -/
theorem table_upper_triangular {α : Type} (oracle : String → String → α)
    (invalid : List String) (ID ADD : String) (tc tg c : Nat)
    (table : List (List (Option α)))
    (hc : c < tc)
    (hvalid : ∀ g < tg, confName ID ADD (c + 1) (g + 1) ∉ invalid)
    (htab : pwrmsd_writer_multinode oracle invalid ID ADD tc tg c = some table)
    (i j : Nat) (hi : i < table.length) (hj : j < (table.get ⟨i, hi⟩).length)
    (hij : j ≤ c * tg + i) :
    (table.get ⟨i, hi⟩).get ⟨j, hj⟩ = none := by
  obtain ⟨htable, hlen⟩ := writer_table_eq oracle invalid ID ADD tc tg c table htab
  subst htable
  have hitg : i < tg := by simpa using hi
  have h1 : ((List.range tg).map fun g =>
        pwrmsd_row oracle invalid ID ADD tc tg c g).get ⟨i, hi⟩
      = pwrmsd_row oracle invalid ID ADD tc tg c i := by
    rw [List.get_eq_getElem, List.getElem_map, List.getElem_range]
  rw [get_congr h1 hj]
  have hprev := produced_valid_prev oracle invalid ID ADD tc tg c i hitg hc
    (hvalid i hitg) (hlen i hitg)
  exact row_prefix_none oracle invalid ID ADD tc tg c i j (by omega) _

theorem table_upper_triangular_witness :
    (([[none, some (0 : Int)], [none, none]] : List (List (Option Int))).get
        ⟨1, by decide⟩).get ⟨1, by decide⟩ = none :=
  table_upper_triangular (fun _ _ => (0 : Int)) [] "I" "+H" 1 2 0
    [[none, some 0], [none, none]] (by decide) (by decide) (by rfl)
    1 1 (by decide) (by decide) (by decide)

/-- C9: in every produced per-cycle table, the cell of each row at its own
flattened global index — the self-comparison cell — is a placeholder,
never a real score. -/
theorem self_cell_placeholder {α : Type} (oracle : String → String → α)
    (invalid : List String) (ID ADD : String) (tc tg c : Nat)
    (table : List (List (Option α)))
    (hc : c < tc)
    (htab : pwrmsd_writer_multinode oracle invalid ID ADD tc tg c = some table)
    (i : Nat) (hi : i < table.length)
    (hj : c * tg + i < (table.get ⟨i, hi⟩).length) :
    (table.get ⟨i, hi⟩).get ⟨c * tg + i, hj⟩ = none := by
  obtain ⟨htable, hlen⟩ := writer_table_eq oracle invalid ID ADD tc tg c table htab
  subst htable
  have hitg : i < tg := by simpa using hi
  have h1 : ((List.range tg).map fun g =>
        pwrmsd_row oracle invalid ID ADD tc tg c g).get ⟨i, hi⟩
      = pwrmsd_row oracle invalid ID ADD tc tg c i := by
    rw [List.get_eq_getElem, List.getElem_map, List.getElem_range]
  rw [get_congr h1 hj]
  by_cases hval : confName ID ADD (c + 1) (i + 1) ∈ invalid
  · exact row_all_none_of_invalid oracle invalid ID ADD tc tg c i hval _
      (List.get_mem _ _ _)
  · have hprev := produced_valid_prev oracle invalid ID ADD tc tg c i hitg hc hval
      (hlen i hitg)
    exact row_prefix_none oracle invalid ID ADD tc tg c i (c * tg + i) (by omega) _

theorem self_cell_placeholder_witness :
    (([[none, none, none, none], [none, none, some (0 : Int), some 0]] :
        List (List (Option Int))).get ⟨0, by decide⟩).get ⟨0, by decide⟩ = none :=
  self_cell_placeholder (fun _ _ => (0 : Int))
    [confName "I" "+H" 1 1] "I" "+H" 2 2 0
    [[none, none, none, none], [none, none, some 0, some 0]] (by decide) (by rfl)
    0 (by decide) (by decide)

/-! ## C7: the comparison set is exactly the later slots in flattened order -/

theorem decode_block (ID ADD : String) (tg c r0 : Nat) (hr : r0 ≤ tg) (htg : 0 < tg) :
    (List.range' (c * tg + r0) (tg - r0)).map
        (fun k => confName ID ADD (k / tg + 1) (k % tg + 1))
      = (List.range' r0 (tg - r0)).map fun r => confName ID ADD (c + 1) (r + 1) := by
  rw [List.range'_eq_map_range (c * tg + r0), List.range'_eq_map_range r0,
    List.map_map, List.map_map]
  refine List.map_congr_left fun x hx => ?_
  have hx' : x < tg - r0 := List.mem_range.mp hx
  have hlt : r0 + x < tg := by omega
  simp only [Function.comp]
  rw [show c * tg + r0 + x = tg * c + (r0 + x) by ring]
  rw [Nat.mul_add_div htg, Nat.mul_add_mod, Nat.div_eq_of_lt hlt,
    Nat.mod_eq_of_lt hlt]

theorem decode_cycles (ID ADD : String) (tg : Nat) (htg : 0 < tg) :
    ∀ m s, (List.range' (s * tg) (m * tg)).map
        (fun k => confName ID ADD (k / tg + 1) (k % tg + 1))
      = (List.range' s m).flatMap fun c =>
          (List.range tg).map fun g => confName ID ADD (c + 1) (g + 1) := by
  intro m
  induction m with
  | zero => intro s; simp
  | succ m ih =>
      intro s
      have happ := List.range'_append (s * tg) tg (m * tg) 1
      rw [show s * tg + 1 * tg = (s + 1) * tg by ring] at happ
      have hsplit : List.range' (s * tg) ((m + 1) * tg)
          = List.range' (s * tg) tg ++ List.range' ((s + 1) * tg) (m * tg) := by
        rw [show (m + 1) * tg = m * tg + tg by ring]
        exact happ.symm
      rw [hsplit, List.map_append, List.range'_succ, List.flatMap_cons, ih (s + 1)]
      have hb := decode_block ID ADD tg s 0 (by omega) htg
      rw [Nat.add_zero, Nat.sub_zero] at hb
      rw [hb, ← List.range_eq_range']

/-- C7: for a valid slot `(current_cyc, current_geom)`, the comparison set
dispatched for its row is exactly the slots strictly after it in flattened
`(cycle, geometry)` order — later geometries of the same cycle in ascending
order, then all geometries of all later cycles in ascending (cycle, geometry)
order — and nothing else. -/
theorem dispatched_eq_later_slots (invalid : List String) (ID ADD : String)
    (tc tg c g : Nat) (hg : g < tg) (hc : c < tc)
    (hval : confName ID ADD (c + 1) (g + 1) ∉ invalid) :
    rowDispatched invalid ID ADD tc tg c g = specComparisons ID ADD tc tg c g := by
  unfold rowDispatched
  rw [if_neg hval]
  unfold conformers specComparisons
  have htg : 0 < tg := by omega
  have hstart : c * tg + (g + 1) + 1 * (tg - (g + 1)) = (c + 1) * tg := by
    have h : (c + 1) * tg = c * tg + tg := by ring
    omega
  have happ := List.range'_append (c * tg + (g + 1)) (tg - (g + 1))
    ((tc - (c + 1)) * tg) 1
  rw [hstart] at happ
  have hlen2 : tc * tg - (c * tg + (g + 1)) = (tc - (c + 1)) * tg + (tg - (g + 1)) := by
    have e2 : tc = (c + 1) + (tc - (c + 1)) := by omega
    have e1 : tc * tg = c * tg + tg + (tc - (c + 1)) * tg := by
      conv_lhs => rw [e2]
      ring
    generalize (tc - (c + 1)) * tg = X at e1 ⊢
    generalize c * tg = Y at e1 ⊢
    omega
  have h0 : c * tg + g + 1 = c * tg + (g + 1) := by omega
  rw [h0, hlen2, happ.symm, List.map_append,
    decode_block ID ADD tg c (g + 1) (by omega) htg,
    decode_cycles ID ADD tg htg (tc - (c + 1)) (c + 1)]

theorem dispatched_eq_later_slots_witness :
    rowDispatched [] "I" "+H" 2 2 0 0 = specComparisons "I" "+H" 2 2 0 0 :=
  dispatched_eq_later_slots [] "I" "+H" 2 2 0 0 (by decide) (by decide) (by decide)

/-! ## Injectivity of the path templates -/

theorem pad_data (w n : Nat) : (pad w n).data = padChars w n := rfl

theorem tsvName_inj (ID ADD : String) {c g c' g' : Nat}
    (h : tsvName ID ADD c g = tsvName ID ADD c' g') : c = c' ∧ g = g' := by
  have hd := congrArg String.data h
  simp only [tsvName, String.data_append, List.append_assoc, pad_data] at hd
  have h1 := List.append_cancel_left hd
  have h2 := List.append_cancel_left h1
  have h3 := List.append_cancel_left h2
  have h4 := List.append_cancel_left h3
  have h5 := List.append_cancel_left h4
  have h6 := List.append_cancel_left h5
  simp only [List.cons_append, List.nil_append] at h6
  obtain ⟨hc4, hrest⟩ := append_sep_inj
    (fun ch hch => (padChars_ne_sep 4 c ch hch).1)
    (fun ch hch => (padChars_ne_sep 4 c' ch hch).1) h6
  have hcc : c = c' := padChars_inj hc4
  have h7 : padChars 2 g ++ '.' :: ('t' :: 's' :: 'v' :: [])
      = padChars 2 g' ++ '.' :: ('t' :: 's' :: 'v' :: []) := by
    simpa using hrest
  obtain ⟨hg2, _⟩ := append_sep_inj
    (fun ch hch => (padChars_ne_sep 2 g ch hch).2)
    (fun ch hch => (padChars_ne_sep 2 g' ch hch).2) h7
  exact ⟨hcc, padChars_inj hg2⟩

theorem outName_inj (ID ADD : String) {c c' : Nat}
    (h : outName ID ADD c = outName ID ADD c') : c = c' := by
  have hd := congrArg String.data h
  simp only [outName, String.data_append, List.append_assoc, pad_data] at hd
  have h1 := List.append_cancel_left hd
  have h2 := List.append_cancel_left h1
  have h3 := List.append_cancel_left h2
  have h4 := List.append_cancel_left h3
  have h5 := List.append_cancel_left h4
  have h6 := List.append_cancel_left h5
  simp only [List.cons_append, List.nil_append] at h6
  obtain ⟨hc4, _⟩ := append_sep_inj
    (fun ch hch => (padChars_ne_sep 4 (c + 1) ch hch).1)
    (fun ch hch => (padChars_ne_sep 4 (c' + 1) ch hch).1) h6
  have := padChars_inj hc4
  omega

/-! ## C4: exactly one result file present -/

theorem length_filterMap_add_countP {α β : Type} (f : α → Option β) (l : List α) :
    (l.filterMap f).length + l.countP (fun a => (f a).isNone) = l.length := by
  induction l with
  | nil => simp
  | cons a tl ih =>
      rw [List.filterMap_cons, List.countP_cons]
      cases hfa : f a with
      | none => simp only [hfa, Option.isNone_none]; simp; omega
      | some b => simp only [hfa, Option.isNone_some]; simp; omega

theorem sum_sub_indicator (t c₀ : Nat) (ht : 1 ≤ t) :
    ∀ l : List Nat, l.Nodup → c₀ ∈ l →
      (l.map fun c => t - (if c = c₀ then 1 else 0)).sum = l.length * t - 1 := by
  intro l
  induction l with
  | nil => intro _ hmem; simp at hmem
  | cons a tl ih =>
      intro hnd hmem
      rcases List.mem_cons.mp hmem with h | h
      · have ha : a = c₀ := h.symm
        subst ha
        have hnotin : a ∉ tl := (List.nodup_cons.mp hnd).1
        have htl : (tl.map fun c => t - (if c = a then 1 else 0)).sum
            = tl.length * t := by
          have he : (tl.map fun c => t - (if c = a then 1 else 0))
              = tl.map fun _ => t := by
            refine List.map_congr_left fun x hx => ?_
            have hxa : x ≠ a := fun hxx => hnotin (by rw [← hxx]; exact hx)
            rw [if_neg hxa]
            omega
          rw [he, sum_map_const]
        rw [List.map_cons, List.sum_cons, if_pos rfl, htl, List.length_cons]
        have hx : (tl.length + 1) * t = tl.length * t + t := by ring
        rw [hx]
        generalize tl.length * t = X
        omega
      · have hanec : a ≠ c₀ := by
          intro he
          exact (List.nodup_cons.mp hnd).1 (he ▸ h)
        have ihh := ih (List.nodup_cons.mp hnd).2 h
        rw [List.map_cons, List.sum_cons, if_neg hanec, ihh, List.length_cons]
        have h1 : 1 ≤ tl.length := List.length_pos.mpr (List.ne_nil_of_mem h)
        have hx : (tl.length + 1) * t = tl.length * t + t := by ring
        rw [hx]
        have h2 : 1 * 1 ≤ tl.length * t := Nat.mul_le_mul h1 ht
        generalize tl.length * t = X at *
        omega

/-- C4: when the result directory holds exactly the one `.tsv` matching the
expected pair `(c₀, g₀)`, `find_invalid_confs` returns every expected input
conformer path except the one corresponding to that file — in total
`tot_cyc * tot_geom - 1` entries. -/
theorem find_invalid_confs_single_present (ID ADD : String)
    (tot_cyc tot_geom c₀ g₀ : Nat)
    (hc1 : 1 ≤ c₀) (hc2 : c₀ ≤ tot_cyc) (hg1 : 1 ≤ g₀) (hg2 : g₀ ≤ tot_geom) :
    find_invalid_confs ID ADD [tsvName ID ADD c₀ g₀] tot_cyc tot_geom
        = ((List.range' 1 tot_cyc).flatMap fun c =>
            (List.range' 1 tot_geom).filterMap fun g =>
              if c = c₀ ∧ g = g₀ then none else some (confName ID ADD c g))
    ∧ (find_invalid_confs ID ADD [tsvName ID ADD c₀ g₀] tot_cyc tot_geom).length
        = tot_cyc * tot_geom - 1 := by
  have hmain : find_invalid_confs ID ADD [tsvName ID ADD c₀ g₀] tot_cyc tot_geom
      = ((List.range' 1 tot_cyc).flatMap fun c =>
          (List.range' 1 tot_geom).filterMap fun g =>
            if c = c₀ ∧ g = g₀ then none else some (confName ID ADD c g)) := by
    unfold find_invalid_confs
    refine List.flatMap_congr fun c _ => ?_
    refine List.filterMap_congr fun g _ => ?_
    by_cases hm : c = c₀ ∧ g = g₀
    · obtain ⟨h1, h2⟩ := hm
      subst h1
      subst h2
      simp
    · have hne : tsvName ID ADD c g ≠ tsvName ID ADD c₀ g₀ := by
        intro he
        exact hm ⟨(tsvName_inj ID ADD he).1, (tsvName_inj ID ADD he).2⟩
      have hniff : tsvName ID ADD c g ∉ [tsvName ID ADD c₀ g₀] := by
        simp [hne]
      rw [if_neg hniff, if_neg hm]
  refine ⟨hmain, ?_⟩
  rw [hmain, List.length_flatMap]
  have htg1 : 1 ≤ tot_geom := by omega
  have hpoint : (List.map (List.length ∘ fun c =>
        (List.range' 1 tot_geom).filterMap fun g =>
          if c = c₀ ∧ g = g₀ then none else some (confName ID ADD c g))
        (List.range' 1 tot_cyc))
      = (List.range' 1 tot_cyc).map fun c => tot_geom - (if c = c₀ then 1 else 0) := by
    refine List.map_congr_left fun c _ => ?_
    simp only [Function.comp]
    have hcnt := length_filterMap_add_countP
      (fun g => if c = c₀ ∧ g = g₀ then none else some (confName ID ADD c g))
      (List.range' 1 tot_geom)
    rw [List.length_range'] at hcnt
    by_cases hcc : c = c₀
    · subst hcc
      have hone : List.countP
          (fun g => (if c = c ∧ g = g₀ then (none : Option String)
            else some (confName ID ADD c g)).isNone)
          (List.range' 1 tot_geom) = 1 := by
        have he : List.countP
            (fun g => (if c = c ∧ g = g₀ then (none : Option String)
              else some (confName ID ADD c g)).isNone)
            (List.range' 1 tot_geom)
            = List.countP (fun g => g == g₀) (List.range' 1 tot_geom) := by
          refine List.countP_congr fun g _ => ?_
          by_cases hgg : g = g₀
          · simp [hgg]
          · simp [hgg]
        rw [he, ← List.count_eq_countP]
        exact List.count_eq_one_of_mem (List.nodup_range' 1 tot_geom)
          (List.mem_range'.mpr ⟨g₀ - 1, by omega, by omega⟩)
      rw [hone] at hcnt
      rw [if_pos rfl]
      omega
    · have hzero : List.countP
          (fun g => (if c = c₀ ∧ g = g₀ then (none : Option String)
            else some (confName ID ADD c g)).isNone)
          (List.range' 1 tot_geom) = 0 := by
        rw [List.countP_eq_zero]
        intro g _
        simp [hcc]
      rw [hzero] at hcnt
      rw [if_neg hcc]
      omega
  rw [hpoint, sum_sub_indicator tot_geom c₀ htg1 (List.range' 1 tot_cyc)
    (List.nodup_range' 1 tot_cyc)
    (List.mem_range'.mpr ⟨c₀ - 1, by omega, by omega⟩), List.length_range']

theorem find_invalid_confs_single_present_witness :
    find_invalid_confs "I" "+H" [tsvName "I" "+H" 1 1] 3 2
        = ((List.range' 1 3).flatMap fun c =>
            (List.range' 1 2).filterMap fun g =>
              if c = 1 ∧ g = 1 then none else some (confName "I" "+H" c g))
    ∧ (find_invalid_confs "I" "+H" [tsvName "I" "+H" 1 1] 3 2).length = 3 * 2 - 1 :=
  find_invalid_confs_single_present "I" "+H" 3 2 1 1 (by decide) (by decide)
    (by decide) (by decide)

/-! ## C8: the skip-existing logic of the driver -/

theorem driver_files_mono (ID ADD : String) :
    ∀ (l : List Nat) (acc : List Nat × List String) (x : String),
      x ∈ acc.2 → x ∈ (l.foldl (driverStep ID ADD) acc).2 := by
  intro l
  induction l with
  | nil => intro acc x hx; simpa using hx
  | cons a tl ih =>
      intro acc x hx
      rw [List.foldl_cons]
      apply ih
      unfold driverStep
      by_cases h : outName ID ADD a ∈ acc.2
      · rw [if_pos h]; exact hx
      · rw [if_neg h]
        exact List.mem_append.mpr (Or.inl hx)

theorem driver_writes (ID ADD : String) :
    ∀ (l : List Nat) (acc : List Nat × List String), ∀ c ∈ l,
      outName ID ADD c ∈ (l.foldl (driverStep ID ADD) acc).2 := by
  intro l
  induction l with
  | nil => intro acc c hc; simp at hc
  | cons a tl ih =>
      intro acc c hc
      rw [List.foldl_cons]
      rcases List.mem_cons.mp hc with h | h
      · subst h
        apply driver_files_mono
        unfold driverStep
        by_cases hm : outName ID ADD c ∈ acc.2
        · rw [if_pos hm]; exact hm
        · rw [if_neg hm]
          exact List.mem_append.mpr (Or.inr (List.mem_singleton.mpr rfl))
      · exact ih _ c h

theorem driver_all_skip (ID ADD : String) :
    ∀ (l : List Nat) (acc : List Nat × List String),
      (∀ c ∈ l, outName ID ADD c ∈ acc.2) →
      l.foldl (driverStep ID ADD) acc = acc := by
  intro l
  induction l with
  | nil => intro acc _; rfl
  | cons a tl ih =>
      intro acc h
      rw [List.foldl_cons]
      have ha : driverStep ID ADD acc a = acc := by
        unfold driverStep
        rw [if_pos (h a (List.mem_cons_self a tl))]
      rw [ha]
      exact ih acc fun c hc => h c (List.mem_cons_of_mem a hc)

theorem driver_dispatched (ID ADD : String) :
    ∀ (l : List Nat) (acc : List Nat × List String), l.Nodup →
      (l.foldl (driverStep ID ADD) acc).1
        = acc.1 ++ l.filter fun c => decide (outName ID ADD c ∉ acc.2) := by
  intro l
  induction l with
  | nil => intro acc _; simp
  | cons a tl ih =>
      intro acc hnd
      rw [List.foldl_cons, List.filter_cons]
      by_cases h : outName ID ADD a ∈ acc.2
      · have hstep : driverStep ID ADD acc a = acc := by
          unfold driverStep
          rw [if_pos h]
        have hdec : decide (outName ID ADD a ∉ acc.2) = false := by
          simp [h]
        rw [hstep, hdec]
        simp only [Bool.false_eq_true, if_false]
        exact ih acc (List.nodup_cons.mp hnd).2
      · have hstep : driverStep ID ADD acc a
            = (acc.1 ++ [a], acc.2 ++ [outName ID ADD a]) := by
          unfold driverStep
          rw [if_neg h]
        have hdec : decide (outName ID ADD a ∉ acc.2) = true := by
          simp [h]
        rw [hstep, hdec]
        simp only [if_true]
        rw [ih _ (List.nodup_cons.mp hnd).2]
        have hfeq : (tl.filter fun c =>
              decide (outName ID ADD c ∉ acc.2 ++ [outName ID ADD a]))
            = tl.filter fun c => decide (outName ID ADD c ∉ acc.2) := by
          refine List.filter_congr fun x hx => ?_
          have hxa : x ≠ a := by
            intro he
            exact (List.nodup_cons.mp hnd).1 (he ▸ hx)
          have hout : outName ID ADD x ≠ outName ID ADD a := by
            intro he
            exact hxa (outName_inj ID ADD he)
          simp [List.mem_append, hout]
        rw [hfeq]
        simp

/-- C8: the driver dispatches the table builder for cycle `c` exactly when
`c` lies in the half-open range `[start, stop)` and the output artifact of `c` is
not already among the existing files; and a second identical run over the
file set left by the first run dispatches nothing. -/
theorem driver_skips_existing (fs : List String) (ID ADD : String)
    (start stop c : Nat) :
    (c ∈ (driverRun fs ID ADD start stop).1
      ↔ start ≤ c ∧ c < stop ∧ outName ID ADD c ∉ fs)
    ∧ (driverRun (driverRun fs ID ADD start stop).2 ID ADD start stop).1 = [] := by
  constructor
  · unfold driverRun
    rw [driver_dispatched ID ADD _ ([], fs) (List.nodup_range' _ _)]
    simp only [List.nil_append]
    rw [List.mem_filter]
    constructor
    · rintro ⟨hr, hd⟩
      obtain ⟨i, hi, hci⟩ := List.mem_range'.mp hr
      exact ⟨by omega, by omega, by simpa using hd⟩
    · rintro ⟨h1, h2, h3⟩
      exact ⟨List.mem_range'.mpr ⟨c - start, by omega, by omega⟩, by simpa using h3⟩
  · unfold driverRun
    rw [driver_all_skip ID ADD _
      ([], (List.foldl (driverStep ID ADD) ([], fs)
        (List.range' start (stop - start))).2)
      (fun x hx => driver_writes ID ADD _ ([], fs) x hx)]

end ConfSel
